import Mathlib

/-!
A shallow embedding of the session registry, routing, and listener
subsystem of `jupyter_lsp` (files `manager.py` and `types.py`), together
with theorems checking the specification's claims against it.

Modelling conventions:
* Python machine state is passed explicitly; mutation becomes
  functional update.
* Code that can raise returns `Except PyErr` (or pairs a result with an
  `Option PyErr`), with one constructor per exception class that the
  embedded code can actually raise.
* `dict` objects become insertion-ordered association lists with unique
  keys (`dlookup` / `dinsert` / `dupdate` below mirror `d[k]`,
  `d[k] = v`, and `d.update(other)`).
* Python `re` patterns become a small regular-expression AST with a
  derivative-based matcher; `re.match` (anchored at the start),
  `re.search` (anywhere) and full-string matching are each defined so
  the three semantics can be told apart.
* The side effects of the asynchronous code (listener callbacks firing,
  `session.write`, `handler.write_message`) are recorded in an event
  trace; `asyncio.gather` runs every gathered coroutine to completion
  (no cancellation) and propagates the first failure to the awaiter.
  The interleaving among concurrently running listeners is determinised
  to registration order; no theorem below depends on that order.
-/

/-- Exceptions the embedded code can raise: `KeyError` from
`message["method"]`, `ValueError`/`json.JSONDecodeError` from
`json.loads`, `TypeError` from `set | list`, and arbitrary exceptions
raised inside listener callbacks (tagged by a number). -/
inductive PyErr : Type
  | keyError : PyErr
  | valueError : PyErr
  | typeError : PyErr
  | user : Nat → PyErr
deriving DecidableEq

deriving instance DecidableEq for Except

/- ## Regular expressions (model of Python `re`) -/

/-- Regular-expression AST standing in for a compiled Python pattern. -/
inductive RE : Type
  | emp : RE
  | eps : RE
  | chr : Char → RE
  | alt : RE → RE → RE
  | cat : RE → RE → RE
  | star : RE → RE
deriving DecidableEq

/-- Does the pattern accept the empty string? -/
def reNullable : RE → Bool
  | .emp => false
  | .eps => true
  | .chr _ => false
  | .alt a b => reNullable a || reNullable b
  | .cat a b => reNullable a && reNullable b
  | .star _ => true

/-- Brzozowski derivative of a pattern by one character. -/
def reDeriv : RE → Char → RE
  | .emp, _ => .emp
  | .eps, _ => .emp
  | .chr c, d => if c = d then .eps else .emp
  | .alt a b, d => .alt (reDeriv a d) (reDeriv b d)
  | .cat a b, d =>
      if reNullable a then .alt (.cat (reDeriv a d) b) (reDeriv b d)
      else .cat (reDeriv a d) b
  | .star a, d => .cat (reDeriv a d) (.star a)

/-- Full match: the pattern accepts the whole character list
(Python `re.fullmatch`). -/
def reFullL (r : RE) (s : List Char) : Bool :=
  reNullable (s.foldl reDeriv r)

/-- Anchored match: the pattern accepts some prefix of the character
list.  This is the semantics of Python `re.match(p, s) is not None`. -/
def reMatchL : RE → List Char → Bool
  | r, [] => reNullable r
  | r, c :: cs => reNullable r || reMatchL (reDeriv r c) cs

/-- Search: the pattern accepts a substring starting anywhere.  This is
the semantics of Python `re.search(p, s) is not None`. -/
def reSearchL : RE → List Char → Bool
  | r, [] => reMatchL r []
  | r, c :: cs => reMatchL r (c :: cs) || reSearchL r cs

/-- The literal pattern for a string with no metacharacters. -/
def reStr (s : String) : RE :=
  s.toList.foldr (fun c r => RE.cat (RE.chr c) r) RE.eps

/-- `re.match(p, s) is not None` on strings. -/
def reMatch (r : RE) (s : String) : Bool := reMatchL r s.toList

/-- `re.search(p, s) is not None` on strings. -/
def reSearch (r : RE) (s : String) : Bool := reSearchL r s.toList

/-- `re.fullmatch(p, s) is not None` on strings. -/
def reFull (r : RE) (s : String) : Bool := reFullL r s.toList

/- ## Insertion-ordered dictionaries as association lists -/

/-- `d[k]`: first binding of `k` (unique when keys are nodup). -/
def dlookup [DecidableEq κ] : List (κ × α) → κ → Option α
  | [], _ => none
  | (k0, v0) :: rest, k => if k = k0 then some v0 else dlookup rest k

/-- `d[k] = v`: replace the binding in place, else append (Python dicts
keep the original position of an updated key and append new keys). -/
def dinsert [DecidableEq κ] : List (κ × α) → κ → α → List (κ × α)
  | [], k, v => [(k, v)]
  | (k0, v0) :: rest, k, v =>
      if k0 = k then (k, v) :: rest else (k0, v0) :: dinsert rest k v

/-- `a.update(c)`: apply every binding of `c` to `a` in order. -/
def dupdate [DecidableEq κ] (a c : List (κ × α)) : List (κ × α) :=
  c.foldl (fun acc kv => dinsert acc kv.1 kv.2) a

/-- The keys of an association list are pairwise distinct (true of every
list that models a Python dict). -/
abbrev keysNodup [DecidableEq κ] (d : List (κ × α)) : Prop :=
  (d.map Prod.fst).Nodup

/-- `Option` fallback without notation: `a` if present, else `b`. -/
def oOr (a b : Option α) : Option α :=
  match a with
  | some v => some v
  | none => b

/- ## Core data model -/

/-- One entry of the `language_servers` spec map.  The source accesses
only `spec.get("argv")`, `spec.get("languages")` and
`spec["languages"]`; a key that is absent and a key bound to `[]` are
both falsy and are treated identically by the code, so both are
modelled as the empty list.  Extra fields (env, …) are never consulted
by the embedded code and are omitted. -/
structure ServerSpec : Type where
  argv : List String
  languages : List String
deriving DecidableEq

/-- `language_servers`: a dict keyed by implementation key. -/
abbrev SpecDict : Type := List (String × ServerSpec)

/-- A parsed JSON-RPC message (the result of `json.loads`).  The only
field the embedded code reads is `"method"`; `none` models a message
without a `method` key (e.g. a response). -/
structure LspMessage : Type where
  method : Option String
deriving DecidableEq

/-- A raw payload as received from the transport: either it parses to a
structured message or `json.loads` raises.  JSON parsing itself is out
of the modelled core, so the payload carries its parse. -/
inductive RawMessage : Type
  | valid : LspMessage → RawMessage
  | malformed : RawMessage
deriving DecidableEq

/-- `json.loads`: returns the structured message or raises
`ValueError` (`json.JSONDecodeError`). -/
def parseMessage : RawMessage → Except PyErr LspMessage
  | .valid m => Except.ok m
  | .malformed => Except.error PyErr.valueError

/-- A client handler: `id` models Python object identity, `language` is
the single language the connection speaks. -/
structure Handler : Type where
  id : Nat
  language : String
deriving DecidableEq

/-- The runtime value of `session.handlers`.  The code assigns it both
a `set` (in `subscribe`, and initially) and a `list` (in
`unsubscribe`); which one it currently is decides whether `set | x`
succeeds, so the runtime type is part of the state. -/
inductive PyHandlers : Type
  | pset : List Handler → PyHandlers
  | plist : List Handler → PyHandlers
deriving DecidableEq

/-- The elements, as Python iteration would yield them. -/
def PyHandlers.toList : PyHandlers → List Handler
  | .pset l => l
  | .plist l => l

/-- Python `h in handlers` (works for both set and list). -/
def PyHandlers.memb (hs : PyHandlers) (x : Handler) : Prop :=
  x ∈ hs.toList

instance (hs : PyHandlers) (x : Handler) : Decidable (hs.memb x) := by
  unfold PyHandlers.memb
  infer_instance

/-- `set([handler]) | session.handlers`: set union when the right side
is a set, `TypeError` when it is a list (Python `set.__or__` does not
accept a list). -/
def pyUnion (a : List Handler) (b : PyHandlers) : Except PyErr (List Handler) :=
  match b with
  | .pset l => Except.ok (a ++ l.filter (fun x => decide (x ∉ a)))
  | .plist _ => Except.error PyErr.typeError

/-- Modelled from the spec: `LanguageServerSession` lives in
`session.py`, which is not part of the embedded sources.  Per the spec
it "exposes `spec` (read-only) and `handlers` (the mutable subscriber
set managed by SubscriptionTable)"; construction performs no I/O and a
fresh session starts with no subscribers, `handlers` being a set. -/
structure Session : Type where
  spec : ServerSpec
  handlers : PyHandlers
deriving DecidableEq

/-- `LanguageServerSession(spec=spec, parent=self)`. -/
def mkSession (spec : ServerSpec) : Session :=
  { spec := spec, handlers := PyHandlers.pset [] }

/-- The session table: a dict keyed by tuples of languages. -/
abbrev SessionDict : Type := List (List String × Session)

/- ## Spec resolution and session construction -/

/-- Python `sorted` on a list of strings: a stable sort; since equal
strings are indistinguishable the output equals any sort for the
lexicographic order. -/
def pySorted (l : List String) : List String :=
  l.insertionSort (· ≤ ·)

/-- `tuple(sorted(spec["languages"]))`: the session key. -/
def sessionKey (languages : List String) : List String :=
  pySorted languages

/-- `LanguageServerManager.init_language_servers`: overlay the
configured map on the auto-detected one, then keep only entries with
truthy `argv` and truthy `languages`. -/
def init_language_servers (autodetect : Bool) (detected configured : SpecDict) :
    SpecDict :=
  let base : SpecDict := []
  let merged0 := if autodetect then dupdate base detected else base
  let merged := dupdate merged0 configured
  merged.filter (fun kv => !kv.2.argv.isEmpty && !kv.2.languages.isEmpty)

/-- `LanguageServerManager.init_sessions`: for every spec value in
order, upsert `tuple(sorted(spec["languages"])) -> Session(spec)` into
a fresh dict. -/
def init_sessions (language_servers : SpecDict) : SessionDict :=
  (language_servers.map Prod.snd).foldl
    (fun acc sp => dinsert acc (sessionKey sp.languages) (mkSession sp)) []

/- ## Listeners and dispatch -/

/-- Message direction: the scopes a dispatch can be issued under
(`"client"` or `"server"`; `"all"` is only a registration scope). -/
inductive Scope : Type
  | client : Scope
  | server : Scope
deriving DecidableEq

/-- An opaque action performed by a listener callback, recorded in the
event trace (tagged by a number). -/
def LAction : Type := Nat

/-- One event of the observable behaviour of a dispatch/route call. -/
inductive Event : Type
  | listened : Nat → Event
  | wrote : List String → RawMessage → Event
  | handlerWrote : Nat → RawMessage → Event
deriving DecidableEq

/-- `MessageListener` from `types.py`.  `language` and `method` are the
compiled patterns (`re.compile(...) if ... else None`); `run` is the
behaviour of the wrapped callback when awaited: the actions it performs
and whether it returns or raises. -/
structure MessageListener : Type where
  language : Option RE
  method : Option RE
  run : Scope → LspMessage → List String → List Nat × Except PyErr Unit

/-- The language half of `MessageListener.wants`:
`self.language is None or any([re.match(self.language, lang) is not
None for lang in languages])`. -/
def langCheck (l : MessageListener) (languages : List String) : Bool :=
  match l.language with
  | none => true
  | some p => languages.any (fun lang => reMatch p lang)

/-- `MessageListener.wants`.  Faithful to the source: when the listener
has a `method` pattern the code evaluates `message["method"]`, which
raises `KeyError` if the message has no `method` key. -/
def wants (l : MessageListener) (msg : LspMessage) (languages : List String) :
    Except PyErr Bool :=
  match l.method with
  | some mp =>
      match msg.method with
      | none => Except.error PyErr.keyError
      | some ms =>
          if reMatch mp ms then Except.ok (langCheck l languages)
          else Except.ok false
  | none => Except.ok (langCheck l languages)

/-- The manager state used by the routing entry points: the session
table plus the listener table (`_listeners`, keyed by scope). -/
structure Manager : Type where
  sessions : SessionDict
  listeners_client : List MessageListener
  listeners_server : List MessageListener
  listeners_all : List MessageListener

/-- `self._listeners[scope]`. -/
def Manager.listenersOf (m : Manager) : Scope → List MessageListener
  | .client => m.listeners_client
  | .server => m.listeners_server

/-- The filtering list comprehension in `wait_for_listeners`:
`[listener(...) for listener in listeners if listener.wants(...)]`.
`wants` is evaluated in order; the first raising `wants` aborts the
comprehension (coroutines created before that point were never awaited
and have no effect). -/
def selectWanted (ls : List MessageListener) (md : LspMessage)
    (languages : List String) : Except PyErr (List MessageListener) :=
  match ls with
  | [] => Except.ok []
  | l :: rest =>
      match wants l md languages with
      | Except.error e => Except.error e
      | Except.ok true =>
          match selectWanted rest md languages with
          | Except.error e => Except.error e
          | Except.ok ws => Except.ok (l :: ws)
      | Except.ok false => selectWanted rest md languages

/-- The first failure among gathered results, if any (what the bare
`await asyncio.gather(*futures)` raises). -/
def firstErr : List (Except PyErr Unit) → Except PyErr Unit
  | [] => Except.ok ()
  | Except.ok _ :: rest => firstErr rest
  | Except.error e :: _ => Except.error e

/-- `await asyncio.gather(*futures)` with no `return_exceptions`:
every gathered coroutine runs to completion (siblings are not
cancelled), and the first exception is re-raised to the awaiter. -/
def gather (futures : List (List Nat × Except PyErr Unit)) :
    List Event × Except PyErr Unit :=
  (futures.flatMap (fun f => f.1.map Event.listened),
   firstErr (futures.map Prod.snd))

/-- `LanguageServerManager.wait_for_listeners`.  Returns the event
trace of the awaited call and its outcome (normal return or the
exception it raises). -/
def wait_for_listeners (m : Manager) (scope : Scope) (message : RawMessage)
    (languages : List String) : List Event × Except PyErr Unit :=
  let listeners := m.listenersOf scope ++ m.listeners_all
  if listeners.isEmpty then ([], Except.ok ())
  else
    match parseMessage message with
    | Except.error e => ([], Except.error e)
    | Except.ok md =>
        match selectWanted listeners md languages with
        | Except.error e => ([], Except.error e)
        | Except.ok wanted =>
            if wanted.isEmpty then ([], Except.ok ())
            else gather (wanted.map (fun l => l.run scope md languages))

/-- `LanguageServerManager.sessions_for_handler`: the sessions whose
handler collection currently contains the handler. -/
def sessions_for_handler (m : Manager) (h : Handler) :
    List (List String × Session) :=
  m.sessions.filter (fun kv => decide (kv.2.handlers.memb h))

/-- `LanguageServerManager.on_client_message`: await listener dispatch,
then write the raw message to every session subscribed-to by the
handler.  If the await raises, the exception propagates and no write
happens. -/
def on_client_message (m : Manager) (message : RawMessage) (h : Handler) :
    List Event × Except PyErr Unit :=
  let d := wait_for_listeners m Scope.client message [h.language]
  match d.2 with
  | Except.error e => (d.1, Except.error e)
  | Except.ok _ =>
      (d.1 ++ (sessions_for_handler m h).map (fun kv => Event.wrote kv.1 message),
       Except.ok ())

/-- `LanguageServerManager.on_server_message`: await listener dispatch
(languages taken from `session.spec["languages"]`), then write the raw
message to every subscribed handler. -/
def on_server_message (m : Manager) (message : RawMessage) (s : Session) :
    List Event × Except PyErr Unit :=
  let d := wait_for_listeners m Scope.server message s.spec.languages
  match d.2 with
  | Except.error e => (d.1, Except.error e)
  | Except.ok _ =>
      (d.1 ++ s.handlers.toList.map (fun x => Event.handlerWrote x.id message),
       Except.ok ())

/- ## Subscription -/

/-- The body of the `subscribe` loop over the session dict: each
session whose key tuple contains `handler.language` gets
`session.handlers = set([handler]) | session.handlers`.  The first
raising union aborts the loop, leaving later sessions untouched; the
pair returned is (resulting table, exception if one was raised). -/
def subscribeGo (h : Handler) :
    List (List String × Session) → List (List String × Session) × Option PyErr
  | [] => ([], none)
  | (k, s) :: rest =>
      if h.language ∈ k then
        match pyUnion [h] s.handlers with
        | Except.error e => ((k, s) :: rest, some e)
        | Except.ok hs =>
            let r := subscribeGo h rest
            ((k, { s with handlers := PyHandlers.pset hs }) :: r.1, r.2)
      else
        let r := subscribeGo h rest
        ((k, s) :: r.1, r.2)

/-- `LanguageServerManager.subscribe`. -/
def subscribe (m : Manager) (h : Handler) : Manager × Option PyErr :=
  let r := subscribeGo h m.sessions
  ({ m with sessions := r.1 }, r.2)

/-- What `unsubscribe` does to one table entry: a session currently
containing the handler gets
`session.handlers = [x for x in session.handlers if x != handler]` —
note the result is a *list* — and other sessions are untouched. -/
def unsubStep (h : Handler) (kv : List String × Session) :
    List String × Session :=
  if kv.2.handlers.memb h then
    (kv.1, { kv.2 with
             handlers :=
               PyHandlers.plist (kv.2.handlers.toList.filter
                 (fun x => decide (x ≠ h))) })
  else kv

/-- `LanguageServerManager.unsubscribe`: for every session currently
containing the handler, `session.handlers` is reassigned to a *list*
comprehension filtering the handler out. -/
def unsubscribe (m : Manager) (h : Handler) : Manager :=
  { m with sessions := m.sessions.map (unsubStep h) }

/- ## Node module lookup -/

/-- `pathlib.Path(candidate_root, "node_modules", *path_frag)` as a
segment list. -/
def nodeCandidate (root : String) (path_frag : List String) : List String :=
  root :: "node_modules" :: path_frag

/-- The search loop of `find_node_module`: first existing candidate
wins, `found` stays `None` otherwise.  `fs` is the filesystem oracle
(`pathlib.Path.exists`). -/
def findFirst (fs : List String → Bool) (path_frag : List String) :
    List String → Option (List String)
  | [] => none
  | r :: rest =>
      if fs (nodeCandidate r path_frag) then some (nodeCandidate r path_frag)
      else findFirst fs path_frag rest

/-- `LanguageServerManagerAPI.find_node_module`:
`all_roots = self.extra_node_roots + self.node_roots`, scanned in
order. -/
def find_node_module (fs : List String → Bool)
    (extra_node_roots node_roots : List String) (path_frag : List String) :
    Option (List String) :=
  findFirst fs path_frag (extra_node_roots ++ node_roots)


/- ## Auxiliary predicates -/

/-- Events that are listener-callback activity. -/
def isListen : Event → Bool
  | .listened _ => true
  | _ => false

/-- Events that deliver the message to a destination (`session.write`
or `handler.write_message`). -/
def isDelivery : Event → Bool
  | .listened _ => false
  | .wrote _ _ => true
  | .handlerWrote _ _ => true

/-- Every session's `handlers` field currently holds a `set` (the state
in which `init_sessions` leaves the table, before any `unsubscribe`). -/
def allPset (ss : SessionDict) : Prop :=
  ∀ kv ∈ ss, ∃ l, kv.2.handlers = PyHandlers.pset l

/-- What one successful `subscribe` iteration does to one table entry:
sessions whose key contains the handler's language get
`set([handler]) | handlers`, others are untouched. -/
def subStep (h : Handler) (kv : List String × Session) :
    List String × Session :=
  if h.language ∈ kv.1 then
    (kv.1, { kv.2 with
             handlers := PyHandlers.pset
               ([h] ++ kv.2.handlers.toList.filter (fun x => decide (x ∉ [h]))) })
  else kv

/- ## Concrete instances used by the closed theorems -/

/-- A callback that does nothing and returns normally. -/
def runNop : Scope → LspMessage → List String → List Nat × Except PyErr Unit :=
  fun _ _ _ => ([], Except.ok ())

/-- A callback that raises on every invocation. -/
def runRaise1 : Scope → LspMessage → List String → List Nat × Except PyErr Unit :=
  fun _ _ _ => ([], Except.error (PyErr.user 1))

/-- A well-behaved callback that performs action `7` and returns. -/
def runEmit7 : Scope → LspMessage → List String → List Nat × Except PyErr Unit :=
  fun _ _ _ => ([7], Except.ok ())

/-- A well-behaved callback that performs action `5` and returns. -/
def runEmit5 : Scope → LspMessage → List String → List Nat × Except PyErr Unit :=
  fun _ _ _ => ([5], Except.ok ())

def specPy : ServerSpec := { argv := ["pyls"], languages := ["python"] }

def specJY : ServerSpec := { argv := ["vscode-json"], languages := ["json", "yaml"] }

def lC1bad : MessageListener := { language := none, method := none, run := runRaise1 }

def lC1good : MessageListener := { language := none, method := none, run := runEmit7 }

def hC1 : Handler := { id := 1, language := "python" }

def sessC1 : Session := { spec := specPy, handlers := PyHandlers.pset [hC1] }

def mC1 : Manager :=
  { sessions := [(["python"], sessC1)], listeners_client := [lC1bad, lC1good],
    listeners_server := [], listeners_all := [] }

def mdC1 : LspMessage := { method := some "initialize" }

def msgC1 : RawMessage := RawMessage.valid mdC1

def lC2 : MessageListener := { language := some (reStr "3"), method := none, run := runNop }

def mdC2 : LspMessage := { method := some "x" }

def lC3 : MessageListener :=
  { language := none, method := some (reStr "textDocument"), run := runNop }

def mdNoMethod : LspMessage := { method := none }

def mC3 : Manager :=
  { sessions := [], listeners_client := [lC3], listeners_server := [],
    listeners_all := [] }

def hC6 : Handler := { id := 2, language := "python" }

def sessC6 : Session := { spec := specPy, handlers := PyHandlers.pset [hC6] }

def lC6 : MessageListener := { language := none, method := none, run := runNop }

def mC6 : Manager :=
  { sessions := [(["python"], sessC6)], listeners_client := [lC6],
    listeners_server := [], listeners_all := [] }

def mC6empty : Manager :=
  { sessions := [(["python"], sessC6)], listeners_client := [],
    listeners_server := [], listeners_all := [] }

def hC7 : Handler := { id := 3, language := "python" }

def sessC7 : Session := { spec := specPy, handlers := PyHandlers.pset [hC7] }

def lC7 : MessageListener := { language := none, method := none, run := runEmit5 }

def mC7 : Manager :=
  { sessions := [(["python"], sessC7)], listeners_client := [lC7],
    listeners_server := [], listeners_all := [] }

def msgC7 : RawMessage := RawMessage.valid { method := some "textDocument" }

def hC8 : Handler := { id := 4, language := "json" }

def mC8 : Manager :=
  { sessions := [(["json", "yaml"], { spec := specJY, handlers := PyHandlers.pset [] }),
                 (["python"], { spec := specPy, handlers := PyHandlers.pset [] })],
    listeners_client := [], listeners_server := [], listeners_all := [] }

def specsC4 : SpecDict :=
  [("a", { argv := ["srv-a"], languages := ["python"] }),
   ("b", { argv := ["srv-b"], languages := ["python"] })]

def dC5det : SpecDict := [("py", specPy)]

def dC5cfg : SpecDict := [("py", { argv := [], languages := [] })]

def fsC9 : List String → Bool :=
  fun p => decide (p = ["e1", "node_modules", "mod"])

def hC10 : Handler := { id := 5, language := "python" }

def sessC10 : Session := { spec := specPy, handlers := PyHandlers.pset [hC10] }

def mC10 : Manager :=
  { sessions := [(["python"], sessC10)], listeners_client := [],
    listeners_server := [], listeners_all := [] }

/- ## Dictionary lemmas -/

theorem keysNodup_head [DecidableEq κ] {kv : κ × α} {rest : List (κ × α)}
    (h : keysNodup (kv :: rest)) : kv.1 ∉ rest.map Prod.fst := by
  have h' : (kv.1 :: rest.map Prod.fst).Nodup := by
    simpa [keysNodup] using h
  exact (List.nodup_cons.mp h').1

theorem keysNodup_tail [DecidableEq κ] {kv : κ × α} {rest : List (κ × α)}
    (h : keysNodup (kv :: rest)) : keysNodup rest := by
  have h' : (kv.1 :: rest.map Prod.fst).Nodup := by
    simpa [keysNodup] using h
  exact (List.nodup_cons.mp h').2

theorem keysNodup_cons [DecidableEq κ] {kv : κ × α} {rest : List (κ × α)}
    (h1 : kv.1 ∉ rest.map Prod.fst) (h2 : keysNodup rest) :
    keysNodup (kv :: rest) := by
  have : (kv.1 :: rest.map Prod.fst).Nodup := List.nodup_cons.mpr ⟨h1, h2⟩
  simpa [keysNodup] using this

theorem dlookup_eq_none_iff [DecidableEq κ] (d : List (κ × α)) (k : κ) :
    dlookup d k = none ↔ k ∉ d.map Prod.fst := by
  induction d with
  | nil => simp [dlookup]
  | cons kv rest ih =>
    obtain ⟨k0, v0⟩ := kv
    by_cases hk : k = k0
    · subst hk
      simp [dlookup]
    · simp only [dlookup, if_neg hk, List.map_cons, List.mem_cons, ih]
      constructor
      · rintro hnk (hc | hc)
        · exact hk hc
        · exact hnk hc
      · intro hall
        exact fun hc => hall (Or.inr hc)

theorem dlookup_dinsert [DecidableEq κ] (d : List (κ × α)) (k k' : κ) (v : α) :
    dlookup (dinsert d k v) k' = if k' = k then some v else dlookup d k' := by
  induction d with
  | nil => simp [dinsert, dlookup]
  | cons kv rest ih =>
    obtain ⟨k0, v0⟩ := kv
    by_cases h0 : k0 = k
    · subst h0
      by_cases h' : k' = k0
      · subst h'
        simp [dinsert, dlookup]
      · simp [dinsert, dlookup, h']
    · by_cases h' : k' = k0
      · subst h'
        have hne : ¬ (k' = k) := fun hc => h0 hc
        simp [dinsert, h0, dlookup, hne]
      · simp [dinsert, h0, dlookup, h', ih]

theorem mem_keys_dinsert [DecidableEq κ] (d : List (κ × α)) (k x : κ) (v : α) :
    x ∈ (dinsert d k v).map Prod.fst ↔ x ∈ d.map Prod.fst ∨ x = k := by
  induction d with
  | nil => simp [dinsert]
  | cons kv rest ih =>
    obtain ⟨k0, v0⟩ := kv
    by_cases h0 : k0 = k
    · subst h0
      simp [dinsert]
      tauto
    · simp [dinsert, h0, ih]
      tauto

theorem keysNodup_dinsert [DecidableEq κ] (d : List (κ × α)) (k : κ) (v : α)
    (hd : keysNodup d) : keysNodup (dinsert d k v) := by
  induction d with
  | nil => simp [dinsert, keysNodup]
  | cons kv rest ih =>
    obtain ⟨k0, v0⟩ := kv
    have hrest : keysNodup rest := keysNodup_tail hd
    have hk0 : k0 ∉ rest.map Prod.fst := keysNodup_head hd
    by_cases h0 : k0 = k
    · subst h0
      simp only [dinsert, if_pos rfl]
      exact keysNodup_cons hk0 hrest
    · simp only [dinsert, if_neg h0]
      refine keysNodup_cons ?_ (ih hrest)
      rw [mem_keys_dinsert]
      rintro (hc | hc)
      · exact hk0 hc
      · exact h0 hc

theorem dlookup_dupdate [DecidableEq κ] (a c : List (κ × α)) (k : κ)
    (hc : keysNodup c) :
    dlookup (dupdate a c) k = oOr (dlookup c k) (dlookup a k) := by
  induction c generalizing a with
  | nil => simp [dupdate, dlookup, oOr]
  | cons kv rest ih =>
    obtain ⟨k0, v0⟩ := kv
    have hrest : keysNodup rest := keysNodup_tail hc
    have hk0 : k0 ∉ rest.map Prod.fst := keysNodup_head hc
    have hstep : dupdate a ((k0, v0) :: rest) = dupdate (dinsert a k0 v0) rest := by
      simp [dupdate]
    rw [hstep, ih (dinsert a k0 v0) hrest]
    by_cases hk : k = k0
    · subst hk
      have hnone : dlookup rest k = none := (dlookup_eq_none_iff rest k).mpr hk0
      simp [dlookup, hnone, oOr, dlookup_dinsert]
    · simp [dlookup, hk, dlookup_dinsert]

theorem keysNodup_dupdate [DecidableEq κ] (a c : List (κ × α))
    (ha : keysNodup a) : keysNodup (dupdate a c) := by
  induction c generalizing a with
  | nil => simpa [dupdate] using ha
  | cons kv rest ih =>
    have hstep : dupdate a (kv :: rest) = dupdate (dinsert a kv.1 kv.2) rest := by
      simp [dupdate]
    rw [hstep]
    exact ih _ (keysNodup_dinsert a kv.1 kv.2 ha)

theorem dlookup_filter_of_none [DecidableEq κ] (d : List (κ × α))
    (p : κ × α → Bool) (k : κ) (h : dlookup d k = none) :
    dlookup (d.filter p) k = none := by
  rw [dlookup_eq_none_iff] at h ⊢
  intro hc
  apply h
  rcases List.mem_map.mp hc with ⟨q, hq, hq2⟩
  exact hq2 ▸ List.mem_map_of_mem Prod.fst (List.mem_of_mem_filter hq)

theorem dlookup_filter [DecidableEq κ] (d : List (κ × α)) (p : κ × α → Bool)
    (k : κ) (hd : keysNodup d) :
    dlookup (d.filter p) k =
      (dlookup d k).bind (fun v => if p (k, v) then some v else none) := by
  induction d with
  | nil => simp [dlookup]
  | cons kv rest ih =>
    obtain ⟨k0, v0⟩ := kv
    have hrest : keysNodup rest := keysNodup_tail hd
    have hk0 : k0 ∉ rest.map Prod.fst := keysNodup_head hd
    by_cases hk : k = k0
    · subst hk
      have hnone : dlookup rest k = none := (dlookup_eq_none_iff rest k).mpr hk0
      by_cases hp : p (k, v0)
      · simp [List.filter_cons, hp, dlookup]
      · simp [List.filter_cons, hp, dlookup, dlookup_filter_of_none rest p k hnone,
          hnone]
    · by_cases hp : p (k0, v0)
      · simp [List.filter_cons, hp, dlookup, hk, ih hrest]
      · simp [List.filter_cons, hp, dlookup, hk, ih hrest]

theorem dlookup_map [DecidableEq κ] (d : List (κ × α)) (f : κ × α → κ × α)
    (hf : ∀ kv, (f kv).1 = kv.1) (k : κ) :
    dlookup (d.map f) k = (dlookup d k).map (fun v => (f (k, v)).2) := by
  induction d with
  | nil => simp [dlookup]
  | cons kv rest ih =>
    obtain ⟨k0, v0⟩ := kv
    have hpair : f (k0, v0) = (k0, (f (k0, v0)).2) := by
      have h1 := hf (k0, v0)
      exact Prod.ext h1 rfl
    by_cases hk : k = k0
    · subst hk
      rw [List.map_cons, hpair]
      simp [dlookup]
    · rw [List.map_cons, hpair]
      simp [dlookup, hk, ih]

theorem dlookup_foldl_dinsert [DecidableEq κ] (key : σ → κ) (mk : σ → α)
    (specs : List σ) (d : List (κ × α)) (k : κ) :
    dlookup (specs.foldl (fun acc sp => dinsert acc (key sp) (mk sp)) d) k =
      oOr ((specs.reverse.find? (fun sp => decide (key sp = k))).map mk)
        (dlookup d k) := by
  induction specs generalizing d with
  | nil => simp [oOr]
  | cons s rest ih =>
    simp only [List.foldl_cons, List.reverse_cons]
    rw [ih (dinsert d (key s) (mk s)) ]
    rw [List.find?_append]
    rcases hfind : rest.reverse.find? (fun sp => decide (key sp = k)) with _ | x
    · simp only [Option.or, Option.map]
      rcases hs : (List.find? (fun sp => decide (key sp = k)) [s]) with _ | y
      · have hne : ¬ (key s = k) := by
          by_contra hc
          simp [List.find?, hc] at hs
        have : ¬ (k = key s) := fun hc => hne hc.symm
        simp [oOr, dlookup_dinsert, this]
      · have hy : y = s ∧ key s = k := by
          by_cases hc : key s = k
          · simp [List.find?, hc] at hs
            exact ⟨hs.symm, hc⟩
          · simp [List.find?, hc] at hs
        obtain ⟨rfl, hk⟩ := hy
        subst hk
        simp [oOr, dlookup_dinsert]
    · simp [Option.or, oOr]

theorem keysNodup_foldl_dinsert [DecidableEq κ] (key : σ → κ) (mk : σ → α)
    (specs : List σ) (d : List (κ × α)) (hd : keysNodup d) :
    keysNodup (specs.foldl (fun acc sp => dinsert acc (key sp) (mk sp)) d) := by
  induction specs generalizing d with
  | nil => simpa using hd
  | cons s rest ih =>
    simp only [List.foldl_cons]
    exact ih _ (keysNodup_dinsert d (key s) (mk s) hd)

/- ## Regular-expression semantics lemmas -/

theorem reFullL_nil (r : RE) : reFullL r [] = reNullable r := rfl

theorem reFullL_cons (r : RE) (c : Char) (s : List Char) :
    reFullL r (c :: s) = reFullL (reDeriv r c) s := rfl

/-- `re.match` is exactly prefix matching: some prefix of the string is
fully accepted by the pattern. -/
theorem reMatchL_iff_prefixMatch (r : RE) (s : List Char) :
    reMatchL r s = true ↔ ∃ p t, s = p ++ t ∧ reFullL r p = true := by
  induction s generalizing r with
  | nil =>
    constructor
    · intro hm
      exact ⟨[], [], rfl, hm⟩
    · rintro ⟨p, t, hpt, hf⟩
      have hp : p = [] := (List.append_eq_nil.mp hpt.symm).1
      subst hp
      exact hf
  | cons c cs ih =>
    constructor
    · intro hm
      rcases Bool.or_eq_true_iff.mp hm with hnul | hrest
      · exact ⟨[], c :: cs, rfl, hnul⟩
      · rcases (ih (reDeriv r c)).mp hrest with ⟨p, t, hpt, hf⟩
        exact ⟨c :: p, t, by rw [hpt, List.cons_append], by
          rw [reFullL_cons]
          exact hf⟩
    · rintro ⟨p, t, hpt, hf⟩
      rcases p with _ | ⟨c', p'⟩
      · simp only [List.nil_append] at hpt
        subst hpt
        have : reNullable r = true := hf
        simp [reMatchL, this]
      · rw [List.cons_append] at hpt
        injection hpt with hc hcs
        subst hc
        have hf' : reFullL (reDeriv r c) p' = true := by
          rw [← reFullL_cons]
          exact hf
        have : reMatchL (reDeriv r c) cs = true :=
          (ih (reDeriv r c)).mpr ⟨p', t, hcs, hf'⟩
      
        simp [reMatchL, this]

/-- `re.search` is anchored matching at an arbitrary start position. -/
theorem reSearchL_iff_anywhere (r : RE) (s : List Char) :
    reSearchL r s = true ↔ ∃ p t, s = p ++ t ∧ reMatchL r t = true := by
  induction s with
  | nil =>
    constructor
    · intro hm
      exact ⟨[], [], rfl, hm⟩
    · rintro ⟨p, t, hpt, hm⟩
      have hp : p = [] := (List.append_eq_nil.mp hpt.symm).1
      have ht : t = [] := (List.append_eq_nil.mp hpt.symm).2
      subst hp
      subst ht
      exact hm
  | cons c cs ih =>
    constructor
    · intro hm
      rcases Bool.or_eq_true_iff.mp hm with hhead | hrest
      · exact ⟨[], c :: cs, rfl, hhead⟩
      · rcases ih.mp hrest with ⟨p, t, hpt, hmt⟩
        exact ⟨c :: p, t, by rw [hpt, List.cons_append], hmt⟩
    · rintro ⟨p, t, hpt, hmt⟩
      rcases p with _ | ⟨c', p'⟩
      · simp only [List.nil_append] at hpt
        subst hpt
        simp [reSearchL, hmt]
      · rw [List.cons_append] at hpt
        injection hpt with hc hcs
        subst hc
        have : reSearchL r cs = true := ih.mpr ⟨p', t, hcs, hmt⟩
        simp [reSearchL, this]

/- ## Dispatch lemmas -/

theorem firstErr_isErr (l : List (Except PyErr Unit))
    (h : ∃ x ∈ l, ∃ e, x = Except.error e) :
    ∃ e, firstErr l = Except.error e := by
  induction l with
  | nil => simp at h
  | cons x rest ih =>
    rcases x with e | u
    · exact ⟨e, rfl⟩
    · rcases h with ⟨y, hy, e, hye⟩
      rcases List.mem_cons.mp hy with hy0 | hy1
      · rw [hy0] at hye
        exact absurd hye (by simp)
      · exact ih ⟨y, hy1, e, hye⟩

theorem selectWanted_nil (md : LspMessage) (languages : List String) :
    selectWanted [] md languages = Except.ok [] := rfl

/-- Given a successful parse and a successful filter, the dispatch
trace is exactly the concatenation of every wanted listener's actions:
all of them run to completion, whether or not some of them raise. -/
theorem wait_trace_eq (m : Manager) (sc : Scope) (msg : RawMessage)
    (languages : List String) (md : LspMessage) (wanted : List MessageListener)
    (hp : parseMessage msg = Except.ok md)
    (hw : selectWanted (m.listenersOf sc ++ m.listeners_all) md languages =
      Except.ok wanted) :
    (wait_for_listeners m sc msg languages).1 =
      wanted.flatMap (fun l => ((l.run sc md languages).1.map Event.listened)) := by
  by_cases hemp : (m.listenersOf sc ++ m.listeners_all).isEmpty
  · have hnil : m.listenersOf sc ++ m.listeners_all = [] :=
      List.isEmpty_iff.mp hemp
    rw [hnil] at hw
    have hwn : wanted = [] := by
      have := hw
      rw [selectWanted_nil] at this
      injection this with h
      exact h.symm
    subst hwn
    simp [wait_for_listeners, hnil]
  · rcases hwe : wanted.isEmpty with hfalse | htrue
    · simp only [wait_for_listeners, hemp, Bool.false_eq_true, if_false, hp, hw, hwe,
        gather]
      rw [List.flatMap_map]
    · have hwn : wanted = [] := List.isEmpty_iff.mp hwe
      subst hwn
      simp [wait_for_listeners, hemp, hp, hw]

/-- If some wanted listener's callback raises, the exception escapes
`wait_for_listeners` to its awaiter. -/
theorem wait_err (m : Manager) (sc : Scope) (msg : RawMessage)
    (languages : List String) (md : LspMessage) (wanted : List MessageListener)
    (hp : parseMessage msg = Except.ok md)
    (hw : selectWanted (m.listenersOf sc ++ m.listeners_all) md languages =
      Except.ok wanted)
    (l : MessageListener) (hl : l ∈ wanted) (e : PyErr)
    (he : (l.run sc md languages).2 = Except.error e) :
    ∃ e', (wait_for_listeners m sc msg languages).2 = Except.error e' := by
  by_cases hemp : (m.listenersOf sc ++ m.listeners_all).isEmpty
  · have hnil : m.listenersOf sc ++ m.listeners_all = [] :=
      List.isEmpty_iff.mp hemp
    rw [hnil, selectWanted_nil] at hw
    injection hw with h
    rw [← h] at hl
    simp at hl
  · have hne : ¬ wanted.isEmpty := by
      intro hc
      rw [List.isEmpty_iff.mp hc] at hl
      simp at hl
    simp only [wait_for_listeners, hemp, Bool.false_eq_true, if_false, hp, hw,
      Bool.not_eq_true] at hne ⊢
    rw [if_neg (by simp [hne])]
    simp only [gather]
    apply firstErr_isErr
    refine ⟨(l.run sc md languages).2, ?_, e, he⟩
    rw [List.map_map]
    exact List.mem_map_of_mem _ hl

/-- Every event a dispatch emits is listener activity (dispatch itself
never writes to a session or handler). -/
theorem wait_trace_listen (m : Manager) (sc : Scope) (msg : RawMessage)
    (languages : List String) :
    ∀ e ∈ (wait_for_listeners m sc msg languages).1, isListen e = true := by
  intro ev hev
  by_cases hemp : (m.listenersOf sc ++ m.listeners_all).isEmpty
  · simp [wait_for_listeners, hemp] at hev
  · rcases hpm : parseMessage msg with e0 | md
    · simp [wait_for_listeners, hemp, hpm] at hev
    · rcases hsw : selectWanted (m.listenersOf sc ++ m.listeners_all) md languages
        with e0 | wanted
      · simp [wait_for_listeners, hemp, hpm, hsw] at hev
      · simp [wait_for_listeners, hemp, hpm, hsw] at hev
        rcases hwe : wanted.isEmpty with hfalse | htrue
        · simp [hwe, gather] at hev
          rcases hev with ⟨l, hl, n, hn, hevl⟩
          rw [← hevl]
          rfl
        · simp [hwe] at hev

/- ## Routing trace lemmas -/

theorem on_client_trace_split (m : Manager) (msg : RawMessage) (h : Handler) :
    ∃ b, (on_client_message m msg h).1 =
        (wait_for_listeners m Scope.client msg [h.language]).1 ++ b ∧
      ∀ e ∈ b, isDelivery e = true := by
  rcases hd : (wait_for_listeners m Scope.client msg [h.language]).2 with e | u
  · refine ⟨[], ?_, by simp⟩
    simp [on_client_message, hd]
  · refine ⟨(sessions_for_handler m h).map (fun kv => Event.wrote kv.1 msg), ?_, ?_⟩
    · simp [on_client_message, hd]
    · intro e he
      rcases List.mem_map.mp he with ⟨kv, _, hkv⟩
      rw [← hkv]
      rfl

theorem on_server_trace_split (m : Manager) (msg : RawMessage) (s : Session) :
    ∃ b, (on_server_message m msg s).1 =
        (wait_for_listeners m Scope.server msg s.spec.languages).1 ++ b ∧
      ∀ e ∈ b, isDelivery e = true := by
  rcases hd : (wait_for_listeners m Scope.server msg s.spec.languages).2 with e | u
  · refine ⟨[], ?_, by simp⟩
    simp [on_server_message, hd]
  · refine ⟨s.handlers.toList.map (fun x => Event.handlerWrote x.id msg), ?_, ?_⟩
    · simp [on_server_message, hd]
    · intro e he
      rcases List.mem_map.mp he with ⟨x, _, hx⟩
      rw [← hx]
      rfl

/- ## Subscription lemmas -/

theorem pyUnion_error_eq (a : List Handler) (b : PyHandlers) (e : PyErr)
    (h : pyUnion a b = Except.error e) : e = PyErr.typeError := by
  cases b with
  | pset l => simp [pyUnion] at h
  | plist l =>
    simp [pyUnion] at h
    exact h.symm

theorem subStep_fst (h : Handler) (kv : List String × Session) :
    (subStep h kv).1 = kv.1 := by
  by_cases hm : h.language ∈ kv.1
  · simp [subStep, hm]
  · simp [subStep, hm]

theorem subscribeGo_pset (h : Handler) (ss : List (List String × Session))
    (hps : allPset ss) : subscribeGo h ss = (ss.map (subStep h), none) := by
  induction ss with
  | nil => rfl
  | cons kv rest ih =>
    obtain ⟨k, s⟩ := kv
    obtain ⟨l, hl⟩ := hps (k, s) (List.mem_cons_self _ _)
    have hrest : allPset rest := fun q hq => hps q (List.mem_cons_of_mem _ hq)
    have hl' : s.handlers = PyHandlers.pset l := hl
    by_cases hm : h.language ∈ k
    · simp only [subscribeGo, if_pos hm, hl', pyUnion, List.map_cons]
      rw [ih hrest]
      simp [subStep, hm, hl', PyHandlers.toList]
    · simp only [subscribeGo, if_neg hm, List.map_cons]
      rw [ih hrest]
      simp [subStep, hm]

theorem subscribeGo_plist (h' : Handler) (ss : List (List String × Session))
    (k : List String) (s : Session) (l : List Handler)
    (hlk : dlookup ss k = some s) (hmatch : h'.language ∈ k)
    (hpl : s.handlers = PyHandlers.plist l) :
    (subscribeGo h' ss).2 = some PyErr.typeError ∧
      dlookup (subscribeGo h' ss).1 k = some s := by
  induction ss with
  | nil => simp [dlookup] at hlk
  | cons kv rest ih =>
    obtain ⟨k0, s0⟩ := kv
    by_cases hk : k = k0
    · subst hk
      have hs0 : s0 = s := by
        simpa [dlookup] using hlk
      subst hs0
      simp only [subscribeGo, if_pos hmatch, hpl, pyUnion]
      simp [dlookup]
    · have hlk' : dlookup rest k = some s := by
        simpa [dlookup, hk] using hlk
      by_cases hm0 : h'.language ∈ k0
      · rcases hpyu : pyUnion [h'] s0.handlers with e | hs
        · have he : e = PyErr.typeError := pyUnion_error_eq _ _ _ hpyu
          subst he
          have hres : subscribeGo h' ((k0, s0) :: rest) =
              ((k0, s0) :: rest, some PyErr.typeError) := by
            simp [subscribeGo, hm0, hpyu]
          rw [hres]
          exact ⟨rfl, by simpa [dlookup, hk] using hlk⟩
        · have ihr := ih hlk'
          simp only [subscribeGo, if_pos hm0, hpyu]
          refine ⟨ihr.1, ?_⟩
          simpa [dlookup, hk] using ihr.2
      · have ihr := ih hlk'
        simp only [subscribeGo, if_neg hm0]
        refine ⟨ihr.1, ?_⟩
        simpa [dlookup, hk] using ihr.2

theorem mem_pyUnion_pset (h x : Handler) (l : List Handler) :
    x ∈ [h] ++ l.filter (fun y => decide (y ∉ [h])) ↔ x = h ∨ x ∈ l := by
  by_cases hx : x = h
  · subst hx
    simp
  · simp [List.mem_filter, hx]

theorem count_pyUnion_pset (h : Handler) (l : List Handler) :
    ([h] ++ l.filter (fun y => decide (y ∉ [h]))).count h = 1 := by
  rw [List.count_append]
  have h1 : ([h] : List Handler).count h = 1 := by simp
  have h2 : (l.filter (fun y => decide (y ∉ [h]))).count h = 0 := by
    rw [List.count_eq_zero]
    intro hc
    rcases List.mem_filter.mp hc with ⟨_, hdec⟩
    simp at hdec
  rw [h1, h2]

theorem subStep_idem (h : Handler) (kv : List String × Session) :
    subStep h (subStep h kv) = subStep h kv := by
  by_cases hm : h.language ∈ kv.1
  · have hfix :
        (([h] ++ kv.2.handlers.toList.filter (fun y => decide (y ∉ [h]))).filter
          (fun y => decide (y ∉ [h]))) =
        kv.2.handlers.toList.filter (fun y => decide (y ∉ [h])) := by
      rw [List.filter_append, List.filter_filter]
      have hh : (([h] : List Handler).filter (fun y => decide (y ∉ [h]))) = [] := by
        simp
      rw [hh]
      simp
    simp [subStep, hm, PyHandlers.toList, hfix]
  · simp [subStep, hm]

theorem allPset_map_subStep (h : Handler) (ss : List (List String × Session))
    (hps : allPset ss) : allPset (ss.map (subStep h)) := by
  intro kv hkv
  rcases List.mem_map.mp hkv with ⟨q, hq, hqkv⟩
  obtain ⟨l, hl⟩ := hps q hq
  by_cases hm : h.language ∈ q.1
  · rw [← hqkv]
    refine ⟨[h] ++ q.2.handlers.toList.filter (fun y => decide (y ∉ [h])), ?_⟩
    simp [subStep, hm]
  · rw [← hqkv]
    simp only [subStep, if_neg hm]
    exact ⟨l, hl⟩

/- ## Session-key lemmas -/

theorem sessionKey_sorted (l : List String) :
    (sessionKey l).Sorted (· ≤ ·) :=
  List.sorted_insertionSort (· ≤ ·) l

theorem sessionKey_perm (l : List String) : (sessionKey l).Perm l :=
  List.perm_insertionSort (· ≤ ·) l

theorem sessionKey_nodup (l : List String) (h : l.Nodup) :
    (sessionKey l).Nodup :=
  (sessionKey_perm l).nodup_iff.mpr h

theorem sessionKey_dedup (l : List String) (h : l.Nodup) :
    (sessionKey l).dedup = sessionKey l :=
  List.dedup_eq_self.mpr (sessionKey_nodup l h)

theorem sessionKey_toFinset (l : List String) :
    (sessionKey l).toFinset = l.toFinset :=
  List.toFinset_eq_of_perm _ _ (sessionKey_perm l)

/-- Two specs serving the identical language set (as a set) get the
identical session key, provided each spec's language list is
duplicate-free. -/
theorem sessionKey_eq_of_toFinset_eq (l1 l2 : List String)
    (h1 : l1.Nodup) (h2 : l2.Nodup) (h : l1.toFinset = l2.toFinset) :
    sessionKey l1 = sessionKey l2 := by
  have hperm : l1.Perm l2 := List.perm_of_nodup_nodup_toFinset_eq h1 h2 h
  have hperm' : (sessionKey l1).Perm (sessionKey l2) :=
    ((sessionKey_perm l1).trans hperm).trans (sessionKey_perm l2).symm
  exact List.eq_of_perm_of_sorted hperm' (sessionKey_sorted l1)
    (sessionKey_sorted l2)

/- ## find_node_module lemmas -/

theorem findFirst_eq_none_iff (fs : List String → Bool) (frag roots : List String) :
    findFirst fs frag roots = none ↔
      ∀ r ∈ roots, fs (nodeCandidate r frag) = false := by
  induction roots with
  | nil => simp [findFirst]
  | cons r rest ih =>
    rcases hr : fs (nodeCandidate r frag) with hfalse | htrue
    · simp [findFirst, hr, ih]
    · simp [findFirst, hr]

theorem findFirst_eq_some_iff (fs : List String → Bool) (frag roots : List String)
    (p : List String) :
    findFirst fs frag roots = some p ↔
      ∃ pre r post, roots = pre ++ r :: post ∧
        (∀ x ∈ pre, fs (nodeCandidate x frag) = false) ∧
        fs (nodeCandidate r frag) = true ∧ p = nodeCandidate r frag := by
  induction roots with
  | nil => simp [findFirst]
  | cons r0 rest ih =>
    rcases hr : fs (nodeCandidate r0 frag) with hfalse | htrue
    · rw [findFirst, hr, if_neg (by simp), ih]
      constructor
      · rintro ⟨pre, r, post, hsplit, hpre, hfs, hp⟩
        exact ⟨r0 :: pre, r, post, by rw [hsplit, List.cons_append],
          by
            intro x hx
            rcases List.mem_cons.mp hx with hx0 | hx1
            · rw [hx0]; exact hr
            · exact hpre x hx1,
          hfs, hp⟩
      · rintro ⟨pre, r, post, hsplit, hpre, hfs, hp⟩
        rcases pre with _ | ⟨q, pre'⟩
        · simp only [List.nil_append] at hsplit
          injection hsplit with hq hrest
          subst hq
          rw [hfs] at hr
          cases hr
        · rw [List.cons_append] at hsplit
          injection hsplit with hq hrest
          subst hq
          exact ⟨pre', r, post, hrest,
            fun x hx => hpre x (List.mem_cons_of_mem _ hx), hfs, hp⟩
    · rw [findFirst, hr, if_pos rfl]
      constructor
      · intro hsome
        injection hsome with hp
        exact ⟨[], r0, rest, rfl, by simp, hr, hp.symm⟩
      · rintro ⟨pre, r, post, hsplit, hpre, hfs, hp⟩
        rcases pre with _ | ⟨q, pre'⟩
        · simp only [List.nil_append] at hsplit
          injection hsplit with hq hrest
          subst hq
          rw [hp]
        · rw [List.cons_append] at hsplit
          injection hsplit with hq hrest
          subst hq
          have := hpre r0 (List.mem_cons_self _ _)
          rw [this] at hr
          cases hr

theorem findFirst_append_of_hit (fs : List String → Bool)
    (frag extra roots : List String)
    (h : ∃ r ∈ extra, fs (nodeCandidate r frag) = true) :
    findFirst fs frag (extra ++ roots) = findFirst fs frag extra := by
  induction extra with
  | nil => simp at h
  | cons r0 rest ih =>
    rcases hr : fs (nodeCandidate r0 frag) with hfalse | htrue
    · have h' : ∃ r ∈ rest, fs (nodeCandidate r frag) = true := by
        rcases h with ⟨r, hrmem, hrt⟩
        rcases List.mem_cons.mp hrmem with hr0 | hr1
        · rw [hr0] at hrt
          rw [hrt] at hr
          cases hr
        · exact ⟨r, hr1, hrt⟩
      simp [findFirst, hr, ih h']
    · simp [findFirst, hr]

/- ## Claim theorems -/

/-- C2, counterexample to the claim as stated: the claim says `wants`
accepts whenever some language matches the pattern under regex *search*
semantics (partial match anywhere in the string).  For the pattern
`"3"` and language list `["python3"]`, search semantics match
(`"3"` occurs inside `"python3"`), yet `wants` returns `false`,
because the source uses `re.match`, which anchors at the start. -/
theorem claim_C2_counterexample :
    reSearch (reStr "3") "python3" = true ∧
    wants lC2 mdC2 ["python3"] = Except.ok false := by decide

/-- C2 (amended): `wants` matches languages and methods with Python
`re.match` semantics — the pattern must match a *prefix* of the string
(anchored at the start), which is neither full-string equality nor
search-anywhere.  In particular the pattern `"python"` still matches
the language id `"python3"` (so the claim's example holds), while a
pattern occurring only in the middle (`"thon"`) does not, although
search semantics would accept it. -/
theorem claim_C2 (lp mp : RE)
    (run1 run2 : Scope → LspMessage → List String → List Nat × Except PyErr Unit)
    (msg msg2 : LspMessage) (langs : List String) (ms : String)
    (hm : msg2.method = some ms) :
    wants { language := some lp, method := none, run := run1 } msg langs =
      Except.ok (langs.any (fun lang => reMatch lp lang)) ∧
    wants { language := none, method := some mp, run := run2 } msg2 langs =
      Except.ok (reMatch mp ms) ∧
    reMatch (reStr "python") "python3" = true ∧
    reFull (reStr "python") "python3" = false ∧
    reMatch (reStr "thon") "python3" = false ∧
    reSearch (reStr "thon") "python3" = true := by
  refine ⟨?_, ?_, by decide, by decide, by decide, by decide⟩
  · simp [wants, langCheck]
  · rcases hre : reMatch mp ms with hf | ht
    · simp [wants, hm, hre, langCheck]
    · simp [wants, hm, hre, langCheck]

theorem claim_C2_witness :
    wants { language := some (reStr "py"), method := none, run := runNop }
      mdC2 ["python3"] =
      Except.ok ((["python3"] : List String).any
        (fun lang => reMatch (reStr "py") lang)) :=
  (claim_C2 (reStr "py") (reStr "x") runNop runNop mdC2 mdC2 ["python3"] "x"
    rfl).1

/-- C3: the claim says a message lacking a `method` field never matches
a listener that requires one, with `wants` returning `false` rather
than failing.  The code instead evaluates `message["method"]`, which
raises `KeyError`; inside `wait_for_listeners` the exception escapes
the whole dispatch.  (Response messages of the wire protocol carry no
`method` key, so with any method-filtered listener registered this
crashes routing for every response; the spec's stated behaviour is the
evident intent and the code a slip.) -/
theorem claim_C3 :
    wants lC3 mdNoMethod ["python"] = Except.error PyErr.keyError ∧
    (wait_for_listeners mC3 Scope.client (RawMessage.valid mdNoMethod)
      ["python"]).2 = Except.error PyErr.keyError := by decide

/-- C9: `find_node_module` scans `extra_node_roots ++ node_roots` in
order: it returns `none` exactly when no candidate path exists under
any root; it returns `some p` exactly when `p` is the candidate of the
first root whose candidate exists (first match wins); and whenever some
extra root has an existing candidate, the result is decided by the
extra roots alone (extra roots are searched before the default
roots). -/
theorem claim_C9 (fs : List String → Bool) (extra roots frag : List String) :
    (find_node_module fs extra roots frag = none ↔
       ∀ r ∈ extra ++ roots, fs (nodeCandidate r frag) = false) ∧
    (∀ p, find_node_module fs extra roots frag = some p ↔
       ∃ pre r post, extra ++ roots = pre ++ r :: post ∧
         (∀ x ∈ pre, fs (nodeCandidate x frag) = false) ∧
         fs (nodeCandidate r frag) = true ∧ p = nodeCandidate r frag) ∧
    ((∃ r ∈ extra, fs (nodeCandidate r frag) = true) →
       find_node_module fs extra roots frag = findFirst fs frag extra) := by
  refine ⟨?_, ?_, ?_⟩
  · exact findFirst_eq_none_iff fs frag (extra ++ roots)
  · intro p
    exact findFirst_eq_some_iff fs frag (extra ++ roots) p
  · intro hhit
    exact findFirst_append_of_hit fs frag extra roots hhit

theorem claim_C9_witness :
    find_node_module fsC9 ["e1"] ["r1"] ["mod"] = findFirst fsC9 ["mod"] ["e1"] :=
  (claim_C9 fsC9 ["e1"] ["r1"] ["mod"]).2.2
    ⟨"e1", by simp, by decide⟩

/-- C1, counterexample to the claim as stated: with two matching
client listeners — the first raising, the second well-behaved — and a
subscribed session, the raising listener's exception IS propagated to
the caller of the dispatch (`on_client_message` resolves with the
exception) and DOES block the forwarding of the message (no
`session.write` event occurs, although the handler is subscribed).
The sibling listener still ran (its action `7` is in the trace). -/
theorem claim_C1_counterexample :
    (on_client_message mC1 msgC1 hC1).2 = Except.error (PyErr.user 1) ∧
    Event.wrote ["python"] msgC1 ∉ (on_client_message mC1 msgC1 hC1).1 ∧
    Event.listened 7 ∈ (on_client_message mC1 msgC1 hC1).1 ∧
    (sessions_for_handler mC1 hC1).length = 1 := by decide

/-- C1 (amended): a raising listener does not cancel its siblings —
the dispatch trace is exactly the concatenation of every matching
listener's actions, so every matching listener runs to completion —
but the exception IS propagated to the caller of the dispatch
(`wait_for_listeners` resolves with an error), and the subsequent
forwarding in `on_client_message` is skipped: with a failed listener
the call emits no delivery event at all. -/
theorem claim_C1 (m : Manager) (msg : RawMessage) (h : Handler)
    (md : LspMessage) (wanted : List MessageListener)
    (hp : parseMessage msg = Except.ok md)
    (hw : selectWanted (m.listenersOf Scope.client ++ m.listeners_all) md
      [h.language] = Except.ok wanted) :
    (wait_for_listeners m Scope.client msg [h.language]).1 =
      wanted.flatMap
        (fun l => ((l.run Scope.client md [h.language]).1.map Event.listened)) ∧
    (∀ l ∈ wanted, ∀ e, (l.run Scope.client md [h.language]).2 = Except.error e →
      (∃ e', (wait_for_listeners m Scope.client msg [h.language]).2 =
        Except.error e') ∧
      ∀ ev ∈ (on_client_message m msg h).1, isDelivery ev = false) := by
  refine ⟨wait_trace_eq m Scope.client msg [h.language] md wanted hp hw, ?_⟩
  intro l hl e he
  obtain ⟨e', he'⟩ := wait_err m Scope.client msg [h.language] md wanted hp hw l hl e he
  refine ⟨⟨e', he'⟩, ?_⟩
  have htr : (on_client_message m msg h).1 =
      (wait_for_listeners m Scope.client msg [h.language]).1 := by
    simp [on_client_message, he']
  intro ev hev
  rw [htr] at hev
  have hlst := wait_trace_listen m Scope.client msg [h.language] ev hev
  cases ev with
  | listened n => rfl
  | wrote k x => simp [isListen] at hlst
  | handlerWrote i x => simp [isListen] at hlst

theorem claim_C1_witness :
    (∃ e', (wait_for_listeners mC1 Scope.client msgC1 [hC1.language]).2 =
      Except.error e') ∧
    ∀ ev ∈ (on_client_message mC1 msgC1 hC1).1, isDelivery ev = false :=
  (claim_C1 mC1 msgC1 hC1 mdC1 [lC1bad, lC1good] rfl rfl).2 lC1bad
    (List.mem_cons_self _ _) (PyErr.user 1) rfl

/-- C6, counterexample to the claim as stated: with one registered
client listener and a subscribed handler, a non-parseable payload makes
`on_client_message` resolve with the `json.loads` exception and emit no
event at all — the message is NOT forwarded to the destination session,
although one was subscribed (`sessions_for_handler` is non-empty). -/
theorem claim_C6_counterexample :
    (on_client_message mC6 RawMessage.malformed hC6).2 =
      Except.error PyErr.valueError ∧
    (on_client_message mC6 RawMessage.malformed hC6).1 = [] ∧
    (sessions_for_handler mC6 hC6).length = 1 := by decide

/-- C6 (amended): for a payload that fails to parse, behaviour splits
on whether any listener is registered for the scope (plus `"all"`):
with no listeners, `json.loads` is never called and the raw message IS
forwarded normally to every destination; with at least one listener,
the parse error escapes `wait_for_listeners` to the routing call, which
resolves with the exception and forwards nothing. -/
theorem claim_C6 (m : Manager) (h : Handler) (s : Session) (msg : RawMessage)
    (e : PyErr) (hp : parseMessage msg = Except.error e) :
    ((m.listenersOf Scope.client ++ m.listeners_all) = [] →
       on_client_message m msg h =
         ((sessions_for_handler m h).map (fun kv => Event.wrote kv.1 msg),
          Except.ok ())) ∧
    ((m.listenersOf Scope.client ++ m.listeners_all) ≠ [] →
       on_client_message m msg h = ([], Except.error e)) ∧
    ((m.listenersOf Scope.server ++ m.listeners_all) = [] →
       on_server_message m msg s =
         (s.handlers.toList.map (fun x => Event.handlerWrote x.id msg),
          Except.ok ())) ∧
    ((m.listenersOf Scope.server ++ m.listeners_all) ≠ [] →
       on_server_message m msg s = ([], Except.error e)) := by
  have hwaitEmpty : ∀ sc langs, (m.listenersOf sc ++ m.listeners_all) = [] →
      wait_for_listeners m sc msg langs = ([], Except.ok ()) := by
    intro sc langs hnil
    simp [wait_for_listeners, hnil]
  have hwaitErr : ∀ sc langs, (m.listenersOf sc ++ m.listeners_all) ≠ [] →
      wait_for_listeners m sc msg langs = ([], Except.error e) := by
    intro sc langs hne
    have hbe : (m.listenersOf sc ++ m.listeners_all).isEmpty = false := by
      simpa [List.isEmpty_iff] using hne
    simp [wait_for_listeners, hbe, hp]
  refine ⟨?_, ?_, ?_, ?_⟩
  · intro hnil
    simp [on_client_message, hwaitEmpty Scope.client [h.language] hnil]
  · intro hne
    simp [on_client_message, hwaitErr Scope.client [h.language] hne]
  · intro hnil
    simp [on_server_message, hwaitEmpty Scope.server s.spec.languages hnil]
  · intro hne
    simp [on_server_message, hwaitErr Scope.server s.spec.languages hne]

theorem claim_C6_witness :
    on_client_message mC6 RawMessage.malformed hC6 =
      ([], Except.error PyErr.valueError) ∧
    on_client_message mC6empty RawMessage.malformed hC6 =
      ((sessions_for_handler mC6empty hC6).map
        (fun kv => Event.wrote kv.1 RawMessage.malformed), Except.ok ()) :=
  ⟨(claim_C6 mC6 hC6 sessC6 RawMessage.malformed PyErr.valueError rfl).2.1
     (by simp [mC6, Manager.listenersOf]),
   (claim_C6 mC6empty hC6 sessC6 RawMessage.malformed PyErr.valueError rfl).1
     rfl⟩

/-- C7: within one `on_client_message` (resp. `on_server_message`)
invocation, the event trace is the fully awaited listener-dispatch
trace followed by the delivery writes: every event of the dispatch
part is listener activity, every later event is a delivery, so a
listener's observation of the message happens-before the message's
delivery effect. -/
theorem claim_C7 (m : Manager) (msg : RawMessage) (h : Handler) (s : Session) :
    (∃ b, (on_client_message m msg h).1 =
        (wait_for_listeners m Scope.client msg [h.language]).1 ++ b ∧
      (∀ e ∈ (wait_for_listeners m Scope.client msg [h.language]).1,
        isListen e = true) ∧
      (∀ e ∈ b, isDelivery e = true)) ∧
    (∃ b, (on_server_message m msg s).1 =
        (wait_for_listeners m Scope.server msg s.spec.languages).1 ++ b ∧
      (∀ e ∈ (wait_for_listeners m Scope.server msg s.spec.languages).1,
        isListen e = true) ∧
      (∀ e ∈ b, isDelivery e = true)) := by
  constructor
  · obtain ⟨b, hb, hdel⟩ := on_client_trace_split m msg h
    exact ⟨b, hb, wait_trace_listen m Scope.client msg [h.language], hdel⟩
  · obtain ⟨b, hb, hdel⟩ := on_server_trace_split m msg s
    exact ⟨b, hb, wait_trace_listen m Scope.server msg s.spec.languages, hdel⟩

theorem claim_C7_witness :
    ∃ b, (on_client_message mC7 msgC7 hC7).1 =
        (wait_for_listeners mC7 Scope.client msgC7 [hC7.language]).1 ++ b ∧
      (∀ e ∈ (wait_for_listeners mC7 Scope.client msgC7 [hC7.language]).1,
        isListen e = true) ∧
      (∀ e ∈ b, isDelivery e = true) :=
  (claim_C7 mC7 msgC7 hC7 sessC7).1

theorem oOr_none (a : Option α) : oOr a none = a := by
  cases a <;> rfl

theorem memb_iff (hs : PyHandlers) (x : Handler) :
    hs.memb x ↔ x ∈ hs.toList := Iff.rfl

theorem unsubStep_fst (h : Handler) (kv : List String × Session) :
    (unsubStep h kv).1 = kv.1 := by
  by_cases hm : kv.2.handlers.memb h
  · simp [unsubStep, hm]
  · simp [unsubStep, hm]

/-- C4: `init_sessions` keys the table by `tuple(sorted(languages))`:
the table's keys are unique; for a duplicate-free language list the key
is sorted, already deduplicated, and carries exactly the spec's
language set; two specs serving the identical language set get the
identical key and hence collapse to one session; and looking any key up
yields the session built from the *last* spec (in `values()` iteration
order, i.e. merge order) whose key is that key. -/
theorem claim_C4 (specs : SpecDict)
    (hnodup : ∀ kv ∈ specs, kv.2.languages.Nodup) :
    keysNodup (init_sessions specs) ∧
    (∀ kv ∈ specs, (sessionKey kv.2.languages).Sorted (· ≤ ·) ∧
       (sessionKey kv.2.languages).dedup = sessionKey kv.2.languages ∧
       (sessionKey kv.2.languages).toFinset = kv.2.languages.toFinset) ∧
    (∀ kv1 ∈ specs, ∀ kv2 ∈ specs,
       kv1.2.languages.toFinset = kv2.2.languages.toFinset →
       sessionKey kv1.2.languages = sessionKey kv2.2.languages) ∧
    (∀ k, dlookup (init_sessions specs) k =
       ((specs.map Prod.snd).reverse.find?
          (fun sp => decide (sessionKey sp.languages = k))).map mkSession) := by
  refine ⟨?_, ?_, ?_, ?_⟩
  · have hh := keysNodup_foldl_dinsert
      (fun sp : ServerSpec => sessionKey sp.languages) mkSession
      (specs.map Prod.snd) ([] : SessionDict) (by exact List.nodup_nil)
    simpa [init_sessions] using hh
  · intro kv hkv
    exact ⟨sessionKey_sorted _, sessionKey_dedup _ (hnodup kv hkv),
      sessionKey_toFinset _⟩
  · intro kv1 h1 kv2 h2 hset
    exact sessionKey_eq_of_toFinset_eq _ _ (hnodup kv1 h1) (hnodup kv2 h2) hset
  · intro k
    have hh := dlookup_foldl_dinsert
      (fun sp : ServerSpec => sessionKey sp.languages) mkSession
      (specs.map Prod.snd) ([] : SessionDict) k
    rw [show dlookup ([] : SessionDict) k = none from rfl, oOr_none] at hh
    simpa [init_sessions] using hh

theorem claim_C4_witness :
    dlookup (init_sessions specsC4) ["python"] =
      ((specsC4.map Prod.snd).reverse.find?
        (fun sp => decide (sessionKey sp.languages = ["python"]))).map
        mkSession :=
  (claim_C4 specsC4 (by decide)).2.2.2 ["python"]

/-- C5: `init_language_servers` (with autodetection on) overlays the
configured map on the auto-detected one — on key collision the
configured entry wins — then keeps only entries with non-empty `argv`
and non-empty `languages`; consequently configuring a key with empty
`argv` or empty `languages` removes the key from the resolved
configuration even when autodetection found it. -/
theorem claim_C5 (detected configured : SpecDict)
    (hdet : keysNodup detected) (hcfg : keysNodup configured) :
    (∀ k, dlookup (init_language_servers true detected configured) k =
       (oOr (dlookup configured k) (dlookup detected k)).bind
         (fun sp => if !sp.argv.isEmpty && !sp.languages.isEmpty then some sp
                    else none)) ∧
    (∀ k sp, dlookup configured k = some sp →
       sp.argv = [] ∨ sp.languages = [] →
       dlookup (init_language_servers true detected configured) k = none) := by
  have hbase : keysNodup (dupdate ([] : SpecDict) detected) :=
    keysNodup_dupdate [] detected (by exact List.nodup_nil)
  have hmerged :
      keysNodup (dupdate (dupdate ([] : SpecDict) detected) configured) :=
    keysNodup_dupdate _ configured hbase
  have hdetlook : ∀ k,
      dlookup (dupdate ([] : SpecDict) detected) k = dlookup detected k := by
    intro k
    rw [dlookup_dupdate [] detected k hdet,
      show dlookup ([] : SpecDict) k = none from rfl, oOr_none]
  have hdef : init_language_servers true detected configured =
      (dupdate (dupdate ([] : SpecDict) detected) configured).filter
        (fun kv => !kv.2.argv.isEmpty && !kv.2.languages.isEmpty) := rfl
  have hmain : ∀ k,
      dlookup (init_language_servers true detected configured) k =
        (oOr (dlookup configured k) (dlookup detected k)).bind
          (fun sp => if !sp.argv.isEmpty && !sp.languages.isEmpty then some sp
                     else none) := by
    intro k
    rw [hdef,
      dlookup_filter (dupdate (dupdate ([] : SpecDict) detected) configured)
        (fun kv => !kv.2.argv.isEmpty && !kv.2.languages.isEmpty) k hmerged,
      dlookup_dupdate (dupdate ([] : SpecDict) detected) configured k hcfg,
      hdetlook k]
  refine ⟨hmain, ?_⟩
  intro k sp hcfgk hor
  rw [hmain k, hcfgk]
  rcases hor with hargv | hlang
  · simp [oOr, hargv]
  · simp [oOr, hlang]

theorem claim_C5_witness :
    dlookup (init_language_servers true dC5det dC5cfg) "py" = none :=
  (claim_C5 dC5det dC5cfg (by decide) (by decide)).2 "py"
    { argv := [], languages := [] } (by decide) (Or.inl rfl)

/-- C8: while every session's `handlers` is a set (the initial state),
`subscribe(handler)` raises nothing and adds the handler to the handler
set of exactly those sessions whose key tuple contains
`handler.language`: membership afterwards is membership before plus the
handler for matching sessions; matching sessions hold exactly one copy
of the handler; non-matching sessions are untouched; and subscribing
the same handler again changes nothing (idempotence). -/
theorem claim_C8 (m : Manager) (h : Handler) (hps : allPset m.sessions) :
    (subscribe m h).2 = none ∧
    (∀ k s, dlookup m.sessions k = some s →
       ∃ s', dlookup (subscribe m h).1.sessions k = some s' ∧
         (∀ x, s'.handlers.memb x ↔
           ((x = h ∧ h.language ∈ k) ∨ s.handlers.memb x)) ∧
         (h.language ∈ k → s'.handlers.toList.count h = 1) ∧
         (h.language ∉ k → s' = s)) ∧
    (subscribe (subscribe m h).1 h).1.sessions = (subscribe m h).1.sessions := by
  have hgo := subscribeGo_pset h m.sessions hps
  have hsess : (subscribe m h).1.sessions = m.sessions.map (subStep h) := by
    simp [subscribe, hgo]
  refine ⟨by simp [subscribe, hgo], ?_, ?_⟩
  · intro k s hlk
    have hmap := dlookup_map m.sessions (subStep h) (subStep_fst h) k
    rw [hlk] at hmap
    refine ⟨(subStep h (k, s)).2, by rw [hsess, hmap]; rfl, ?_, ?_, ?_⟩
    · intro x
      by_cases hm : h.language ∈ k
      · have hhand : (subStep h (k, s)).2.handlers =
            PyHandlers.pset ([h] ++ s.handlers.toList.filter
              (fun y => decide (y ∉ [h]))) := by
          simp [subStep, hm]
        rw [memb_iff, hhand]
        constructor
        · intro hx
          rcases (mem_pyUnion_pset h x s.handlers.toList).mp hx with h1 | h2
          · exact Or.inl ⟨h1, hm⟩
          · exact Or.inr h2
        · rintro (⟨hxh, _⟩ | hx)
          · subst hxh
            exact (mem_pyUnion_pset x x s.handlers.toList).mpr (Or.inl rfl)
          · exact (mem_pyUnion_pset h x s.handlers.toList).mpr (Or.inr hx)
      · have hid : (subStep h (k, s)).2 = s := by
          simp [subStep, hm]
        rw [hid]
        constructor
        · intro hx
          exact Or.inr hx
        · rintro (⟨hxh, hcon⟩ | hx)
          · exact absurd hcon hm
          · exact hx
    · intro hm
      have hhand : (subStep h (k, s)).2.handlers =
          PyHandlers.pset ([h] ++ s.handlers.toList.filter
            (fun y => decide (y ∉ [h]))) := by
        simp [subStep, hm]
      rw [hhand]
      exact count_pyUnion_pset h s.handlers.toList
    · intro hm
      simp [subStep, hm]
  · have hps2 := allPset_map_subStep h m.sessions hps
    have hgo2 := subscribeGo_pset h (m.sessions.map (subStep h)) hps2
    have hsess2 : (subscribe (subscribe m h).1 h).1.sessions =
        (m.sessions.map (subStep h)).map (subStep h) := by
      simp [subscribe, hgo, hgo2]
    rw [hsess2, hsess, List.map_map]
    apply List.map_congr_left
    intro a _
    exact subStep_idem h a

theorem claim_C8_witness :
    (subscribe mC8 hC8).2 = none ∧
    (subscribe (subscribe mC8 hC8).1 hC8).1.sessions =
      (subscribe mC8 hC8).1.sessions := by
  have hps : allPset mC8.sessions := by
    intro kv hkv
    simp [mC8] at hkv
    rcases hkv with h1 | h2
    · exact ⟨[], by rw [h1]⟩
    · exact ⟨[], by rw [h2]⟩
  exact ⟨(claim_C8 mC8 hC8 hps).1, (claim_C8 mC8 hC8 hps).2.2⟩

/-- C10: `unsubscribe` breaks the handlers-are-sets invariant.  After
`unsubscribe(handler)` on a session that contained the handler, that
session's `handlers` field is a Python `list` (the filtering list
comprehension), not a set; a subsequent `subscribe` of *any* handler
targeting that session raises `TypeError` from
`set([handler]) | session.handlers` (`set.__or__` rejects a list); and
in particular the unsubscribe-then-resubscribe round trip leaves the
handler NOT a member of that session. -/
theorem claim_C10 (m : Manager) (h : Handler) (k : List String) (s : Session)
    (hlk : dlookup m.sessions k = some s)
    (hmem : s.handlers.memb h)
    (hlang : h.language ∈ k) :
    dlookup (unsubscribe m h).sessions k =
      some { spec := s.spec,
             handlers := PyHandlers.plist
               (s.handlers.toList.filter (fun x => decide (x ≠ h))) } ∧
    h ∉ s.handlers.toList.filter (fun x => decide (x ≠ h)) ∧
    (∀ h' : Handler, h'.language ∈ k →
       (subscribe (unsubscribe m h) h').2 = some PyErr.typeError) ∧
    (∃ s', dlookup (subscribe (unsubscribe m h) h).1.sessions k = some s' ∧
       ¬ s'.handlers.memb h) := by
  have hulook : dlookup (unsubscribe m h).sessions k =
      some { spec := s.spec,
             handlers := PyHandlers.plist
               (s.handlers.toList.filter (fun x => decide (x ≠ h))) } := by
    have hmap := dlookup_map m.sessions (unsubStep h) (unsubStep_fst h) k
    rw [hlk] at hmap
    have hstep : (unsubStep h (k, s)).2 =
        { spec := s.spec,
          handlers := PyHandlers.plist
            (s.handlers.toList.filter (fun x => decide (x ≠ h))) } := by
      simp [unsubStep, hmem]
    have : dlookup (unsubscribe m h).sessions k =
        some (unsubStep h (k, s)).2 := by
      simpa [unsubscribe] using hmap
    rw [this, hstep]
  have hnotmem : h ∉ s.handlers.toList.filter (fun x => decide (x ≠ h)) := by
    intro hc
    rcases List.mem_filter.mp hc with ⟨_, hdec⟩
    simp at hdec
  refine ⟨hulook, hnotmem, ?_, ?_⟩
  · intro h' hl'
    have hplist := subscribeGo_plist h' (unsubscribe m h).sessions k
      { spec := s.spec,
        handlers := PyHandlers.plist
          (s.handlers.toList.filter (fun x => decide (x ≠ h))) }
      (s.handlers.toList.filter (fun x => decide (x ≠ h))) hulook hl' rfl
    simpa [subscribe] using hplist.1
  · have hplist := subscribeGo_plist h (unsubscribe m h).sessions k
      { spec := s.spec,
        handlers := PyHandlers.plist
          (s.handlers.toList.filter (fun x => decide (x ≠ h))) }
      (s.handlers.toList.filter (fun x => decide (x ≠ h))) hulook hlang rfl
    refine ⟨{ spec := s.spec,
              handlers := PyHandlers.plist
                (s.handlers.toList.filter (fun x => decide (x ≠ h))) },
      ?_, ?_⟩
    · have hss : (subscribe (unsubscribe m h) h).1.sessions =
          (subscribeGo h (unsubscribe m h).sessions).1 := by
        simp [subscribe]
      rw [hss]
      exact hplist.2
    · rw [memb_iff]
      exact hnotmem

theorem claim_C10_witness :
    (subscribe (unsubscribe mC10 hC10) hC10).2 = some PyErr.typeError :=
  (claim_C10 mC10 hC10 ["python"] sessC10 (by decide) (by decide)
    (by decide)).2.2.1 hC10 (by decide)
